import Mathlib

/-!
Verification of the yt-summ bounded work queue and summarization pipeline.

Shallow embedding of the repository's core modules:
  * src/url_queue.py   (UrlQueue: add_url, get_next_url, mark_completed)
  * src/telegram_main.py (process_single_url worker step)
  * src/ai_pipeline.py (run_clean, run_middle_10, run_short_300, run_resources)
  * src/ai_chat.py     (is_503_error, retry_on_503)

Python state is modeled by explicit state passing; the wall clock, the LLM
provider and the JSON parser are modeled as explicit oracle parameters
(`now`, `call`, `jsonParse`), since they are external to the embedded code.
-/

namespace YtSumm

/-! ## url_queue.py -/

/-- UrlTask dataclass: url, source, task_id.  The `added_at` timestamp is
never consulted by any queue operation, so it is omitted; the task id is
built in `__post_init__` as `f"{source}_{int(time.time())}"`, with the clock
passed in explicitly. -/
structure UrlTask where
  url : String
  source : String
  task_id : String
deriving Repr, DecidableEq

/-- Task construction (UrlTask.__post_init__): task_id = source + "_" + now. -/
def mkUrlTask (url source : String) (now : Nat) : UrlTask :=
  { url := url, source := source, task_id := source ++ "_" ++ toString now }

/-- UrlQueue state: max_size, the waiting list `_queue`, and the single
in-flight slot `_processing_task`.  The Python lock only serializes the
operations; each operation is an atomic state transformer here. -/
structure UrlQueue where
  max_size : Nat
  queue : List UrlTask
  processing_task : Option UrlTask
deriving Repr, DecidableEq

/-- The dict returned by UrlQueue.add_url (the human-readable message is
omitted; `success`, `task_id`, `position`, `queue_size` are kept). -/
structure AddResult where
  success : Bool
  task_id : Option String
  position : Int
  queue_size : Nat
deriving Repr, DecidableEq

/-- UrlQueue.add_url: reject when len(queue) >= max_size, else append the
new task and report its 1-based position. -/
def add_url (st : UrlQueue) (url source : String) (now : Nat) :
    AddResult × UrlQueue :=
  if st.queue.length ≥ st.max_size then
    ({ success := false, task_id := none, position := -1,
       queue_size := st.queue.length }, st)
  else
    let task := mkUrlTask url source now
    let q := st.queue ++ [task]
    ({ success := true, task_id := some task.task_id,
       position := (q.length : Int), queue_size := q.length },
     { st with queue := q })

/-- UrlQueue.get_next_url: pop the head of the waiting list (None when it is
empty) and record the popped task as the in-flight task.  Note: the code
does not consult `_processing_task` before popping. -/
def get_next_url (st : UrlQueue) : Option UrlTask × UrlQueue :=
  match st.queue with
  | [] => (none, st)
  | t :: rest => (some t, { st with queue := rest, processing_task := some t })

/-- UrlQueue.mark_completed: true iff the given id matches the recorded
in-flight task (clearing the slot); otherwise false with no state change. -/
def mark_completed (st : UrlQueue) (tid : String) : Bool × UrlQueue :=
  match st.processing_task with
  | some t =>
      if t.task_id = tid then (true, { st with processing_task := none })
      else (false, st)
  | none => (false, st)

/-- Sequence of add_url calls, one per (url, source, now) triple, returning
the list of results and the final state. -/
def add_all (st : UrlQueue) : List (String × String × Nat) →
    List AddResult × UrlQueue
  | [] => ([], st)
  | it :: rest =>
      let r := add_url st it.1 it.2.1 it.2.2
      let rs := add_all r.2 rest
      (r.1 :: rs.1, rs.2)

/-- n consecutive get_next_url calls, returning the popped tasks in order. -/
def drain (st : UrlQueue) : Nat → List (Option UrlTask) × UrlQueue
  | 0 => ([], st)
  | n + 1 =>
      let r := get_next_url st
      let rs := drain r.2 n
      (r.1 :: rs.1, rs.2)

/-! ## telegram_main.py: process_single_url -/

/-- Outcome of yt_processor.process_youtube_url on the dequeued task:
a success dict, a handled failure dict (success=False with an error
message), or an unhandled exception escaping the call.  Chat sends and
logging are modeled as effect-free: telegram_output.send_telegram_message
catches every exception internally and returns a bool. -/
inductive ProcOutcome where
  | success : ProcOutcome
  | failure : String → ProcOutcome
  | raises : String → ProcOutcome
deriving Repr, DecidableEq

/-- telegram_main.process_single_url: dequeue one task; if none, return
False.  Otherwise run the processor; on a normal result (success or handled
failure) mark the task completed after the result messages; on an unhandled
exception mark the task completed inside the except handler.  The third
component records every mark_completed invocation (by task id), in order. -/
def process_single_url (st : UrlQueue) (proc : UrlTask → ProcOutcome) :
    Bool × UrlQueue × List String :=
  match get_next_url st with
  | (none, st1) => (false, st1, [])
  | (some task, st1) =>
      match proc task with
      | ProcOutcome.success =>
          let m := mark_completed st1 task.task_id
          (true, m.2, [task.task_id])
      | ProcOutcome.failure _ =>
          let m := mark_completed st1 task.task_id
          (true, m.2, [task.task_id])
      | ProcOutcome.raises _ =>
          let m := mark_completed st1 task.task_id
          (true, m.2, [task.task_id])

/-! ## Text helpers shared by ai_pipeline.py / ai_chat.py

Python strings are modeled as Lean String / List Char; str.strip() is
modeled with Char.isWhitespace (space, tab, CR, LF — the cases occurring
in model responses). -/

/-- str.strip() on a character list. -/
def pstrip (cs : List Char) : List Char :=
  ((cs.dropWhile Char.isWhitespace).reverse.dropWhile Char.isWhitespace).reverse

/-- str.strip() on a string. -/
def pystrip (s : String) : String :=
  String.mk (pstrip s.toList)

/-- Index of the first occurrence of a character (str.find). -/
def firstIdxOf (c : Char) : List Char → Option Nat
  | [] => none
  | x :: xs => if x = c then some 0 else (firstIdxOf c xs).map (fun k => k + 1)

/-- Index of the last occurrence of a character (str.rfind; None plays the
role of Python's -1). -/
def lastIdxOf (c : Char) : List Char → Option Nat
  | [] => none
  | x :: xs =>
      match lastIdxOf c xs with
      | some k => some (k + 1)
      | none => if x = c then some 0 else none

/-- Does the second list start with the first (str.startswith on chars)? -/
def leadsWith : List Char → List Char → Bool
  | [], _ => true
  | _ :: _, [] => false
  | p :: ps, c :: cs => if p = c then leadsWith ps cs else false

/-- Python substring containment (pat in s). -/
def containsSub (pat : List Char) : List Char → Bool
  | [] => pat.isEmpty
  | c :: rest => leadsWith pat (c :: rest) || containsSub pat rest

/-- str.lower(), character-wise. -/
def pyLower (s : String) : String :=
  String.mk (s.toList.map Char.toLower)

/-- Splitting a character list at every character satisfying p, keeping
empty segments (like re.split on a single-character class).  ai_pipeline
splits on the run pattern [.!?]+; a run of k separators differs from k
single splits only by k-1 extra empty segments, which the subsequent
strip-and-drop-empty filter removes, so the composed operation below is
the same function. -/
def splitOnPred (p : Char → Bool) : List Char → List (List Char)
  | [] => [[]]
  | x :: xs =>
      if p x then [] :: splitOnPred p xs
      else
        match splitOnPred p xs with
        | [] => [[x]]
        | seg :: segs => (x :: seg) :: segs

/-- Sentence-terminal punctuation of run_middle_10: '.', '!', '?'. -/
def isTerm (c : Char) : Bool :=
  c = '.' || c = '!' || c = '?'

/-- run_middle_10 sentence extraction: split on terminal marks, strip each
segment, drop the empty ones ([s.strip() for s in re.split(...) if
s.strip()]). -/
def charSentences (cs : List Char) : List (List Char) :=
  ((splitOnPred isTerm cs).map pstrip).filter (fun t => !t.isEmpty)

/-- '. '.join(sentences) + '.' at the character level. -/
def joinChars : List (List Char) → List Char
  | [] => ['.']
  | [s] => s ++ ['.']
  | s :: rest => s ++ '.' :: ' ' :: joinChars rest

/-! ## ai_mod.call_model and JSON modeling

call_model performs a network call; it is modeled as an oracle from the
input text to its result dict.  json.loads is likewise an oracle
`String → Option JsonVal` (None = json.JSONDecodeError). -/

/-- The error dict shape {code, detail} used across the pipeline. -/
structure ErrObj where
  code : String
  detail : String
deriving Repr, DecidableEq

/-- The result dict of ai_mod.call_model, restricted to the fields the
pipeline stages read: ok, text, error. -/
structure ModelResult where
  ok : Bool
  text : String
  error : Option ErrObj
deriving Repr, DecidableEq

/-- Parsed JSON values, as far as run_clean inspects them. -/
inductive JsonVal where
  | str : String → JsonVal
  | num : Int → JsonVal
  | bool : Bool → JsonVal
  | null : JsonVal
  | arr : List JsonVal → JsonVal
  | obj : List (String × JsonVal) → JsonVal

/-- Python str() of a parsed JSON value, used by run_clean when the
"clean" entry is not a string.  The rendering of containers is
abbreviated; no spec claim depends on it, only on whether the value is a
string. -/
def pyStr : JsonVal → String
  | JsonVal.str s => s
  | JsonVal.num n => toString n
  | JsonVal.bool b => if b then "True" else "False"
  | JsonVal.null => "None"
  | JsonVal.arr _ => "[...]"
  | JsonVal.obj _ => "\x7b...\x7d"

/-- dict.get(key, default).  On a non-dict parse result Python raises
AttributeError, modeled as the Except error. -/
def dictGet (v : JsonVal) (key : String) (dflt : JsonVal) : Except String JsonVal :=
  match v with
  | JsonVal.obj kvs => Except.ok ((kvs.lookup key).getD dflt)
  | _ => Except.error "AttributeError"

/-- re.search(r'\x7b.*\x7d', s, re.DOTALL): greedy match from the first
opening brace to the last closing brace, when the first opening brace
precedes (or is) the last closing brace. -/
def braceExtract (s : String) : Option String :=
  match firstIdxOf '\x7b' s.toList, lastIdxOf '\x7d' s.toList with
  | some i, some j =>
      if i ≤ j then some (String.mk ((s.toList.drop i).take (j + 1 - i))) else none
  | _, _ => none

/-- run_clean's parse attempt: json.loads on the whole text, then on the
brace substring when the first attempt fails. -/
def parseWithRepair (jsonParse : String → Option JsonVal) (text : String) :
    Option JsonVal :=
  match jsonParse text with
  | some v => some v
  | none =>
      match braceExtract text with
      | some sub => jsonParse sub
      | none => none

/-- The strict-JSON clarification appended on the retry call in run_clean. -/
def clarification : String :=
  "Верни JSON строго в формате: \x7b\"clean\":\"текст\",\"links\":[\"url1\",\"url2\"]\x7d"

/-- The dict returned by ai_pipeline.run_clean. -/
structure CleanResult where
  clean : String
  links : List String
  raw : String
  error : Option ErrObj
deriving Repr, DecidableEq

/-- The link filter of run_clean: keep only strings starting with
http:// or https:// ; a non-list "links" entry becomes [].  Python's
str.startswith is modeled by leadsWith on the character lists. -/
def filterLinks : JsonVal → List String
  | JsonVal.arr items =>
      items.filterMap (fun v =>
        match v with
        | JsonVal.str s =>
            if leadsWith "http://".toList s.toList ||
                leadsWith "https://".toList s.toList then some s else none
        | _ => none)
  | _ => []

/-- ai_pipeline.run_clean: call the model; on a failed call propagate its
error; otherwise parse the response as JSON with the brace repair, retry
exactly once with the clarification appended, and fall back to the
invalid_json error result (clean and links empty, raw kept for
diagnostics).  The Python exception detail string is abstracted to a fixed
"JSON parse error"; claims inspect only the code field. -/
def run_clean (call : String → ModelResult) (jsonParse : String → Option JsonVal)
    (transcript : String) : Except String CleanResult :=
  let result := call transcript
  if result.ok = false then
    Except.ok { clean := "", links := [], raw := "", error := result.error }
  else
    let raw := result.text
    let parsed :=
      match parseWithRepair jsonParse raw with
      | some v => some v
      | none =>
          let retry := call (transcript ++ "\n\n" ++ clarification)
          if retry.ok then parseWithRepair jsonParse retry.text else none
    match parsed with
    | none =>
        Except.ok { clean := "", links := [], raw := raw,
                    error := some { code := "invalid_json", detail := "JSON parse error" } }
    | some v => do
        let cv ← dictGet v "clean" (JsonVal.str "")
        let lv ← dictGet v "links" (JsonVal.arr [])
        Except.ok { clean := pyStr cv, links := filterLinks lv, raw := raw, error := none }

/-- ai_pipeline.run_middle_10: strip the response; split into sentences;
if more than 10, keep the first 10 re-joined with '. ' plus a final '.';
otherwise return the stripped text as-is.  A failed model call yields "". -/
def run_middle_10 (call : String → ModelResult) (clean_text : String) : String :=
  let result := call clean_text
  if result.ok = false then ""
  else
    let middle := pstrip result.text.toList
    let sents := charSentences middle
    if sents.length > 10 then String.mk (joinChars (sents.take 10))
    else String.mk middle

/-- ai_pipeline.run_short_300: strip the response; if longer than 300
characters take the 300-character prefix and, when its last space sits at
an index strictly greater than 250, cut there; otherwise keep the hard
300-character cut.  A failed model call yields "". -/
def run_short_300 (call : String → ModelResult) (clean_text : String) : String :=
  let result := call clean_text
  if result.ok = false then ""
  else
    let s := pstrip result.text.toList
    if s.length > 300 then
      let t := s.take 300
      match lastIdxOf ' ' t with
      | some i => if i > 250 then String.mk (t.take i) else String.mk t
      | none => String.mk t
    else String.mk s

/-- set.add on the model of a Python set as a duplicate-free list
(iteration order of the Python set is not observable to any claim; the
model fixes insertion order). -/
def insertNew (x : String) (l : List String) : List String :=
  if x ∈ l then l else l ++ [x]

/-- One iteration of the CLEAN-links loop of run_resources: add the
stripped link when non-empty (if link.strip(): set.add(link.strip())). -/
def addLink (acc : List String) (link : String) : List String :=
  if pstrip link.toList = [] then acc
  else insertNew (String.mk (pstrip link.toList)) acc

/-- The line test of run_resources: line.startswith('http') or '://' in
line. -/
def linkish (line : List Char) : Bool :=
  leadsWith "http".toList line || containsSub "://".toList line

/-- One iteration of the model-response line loop of run_resources: add
the stripped line when it is non-empty and link-like. -/
def addLine (acc : List String) (lineCs : List Char) : List String :=
  if pstrip lineCs = [] then acc
  else if linkish (pstrip lineCs) then insertNew (String.mk (pstrip lineCs)) acc
  else acc

/-- ai_pipeline.run_resources: seed the set with the stripped non-empty
CLEAN links; only when the set is still empty call the model and add every
stripped response line that starts with "http" or contains "://".  The
Bool records whether the model oracle was consulted. -/
def run_resources (call : String → ModelResult) (clean_text : String)
    (links_from_clean : List String) : List String × Bool :=
  let s1 := links_from_clean.foldl addLink []
  if s1 = [] then
    let result := call clean_text
    let s2 :=
      if result.ok then
        (splitOnPred (fun c => c = '\n') (pstrip result.text.toList)).foldl addLine s1
      else s1
    (s2, true)
  else (s1, false)

/-! ## ai_chat.py: is_503_error and retry_on_503 -/

/-- ai_chat.is_503_error on the exception's message string. -/
def is_503_error (err : String) : Bool :=
  let s := (pyLower err).toList
  containsSub "503".toList s &&
    (containsSub "unavailable".toList s || containsSub "overloaded".toList s ||
     containsSub "try again later".toList s)

/-- Outcome of one invocation of the retried thunk: a normal return value
or a raised exception, both modeled by their string content. -/
inductive CallOutcome where
  | ok : String → CallOutcome
  | raise : String → CallOutcome
deriving Repr, DecidableEq

/-- The retry loop of retry_on_503 over backoff_ms[:max_retries]: sleep
the delay, call again; return on success, re-raise a non-503 error
immediately, keep the last 503 error; when the schedule is exhausted raise
the last error.  The second component is the list of sleeps performed, in
order; func is the oracle giving the outcome of the i-th call. -/
def retryLoop (func : Nat → CallOutcome) :
    List Nat → Nat → String → Except String String × List Nat
  | [], _, last => (Except.error last, [])
  | d :: rest, idx, _ =>
      match func idx with
      | CallOutcome.ok v => (Except.ok v, [d])
      | CallOutcome.raise e =>
          if is_503_error e then
            let r := retryLoop func rest (idx + 1) e
            (r.1, d :: r.2)
          else (Except.error e, [d])

/-- ai_chat.retry_on_503: first call without delay; a non-503 failure is
re-raised immediately; a 503 failure enters the retry loop. -/
def retry_on_503 (func : Nat → CallOutcome) (max_retries : Nat)
    (backoff_ms : List Nat) : Except String String × List Nat :=
  match func 0 with
  | CallOutcome.ok v => (Except.ok v, [])
  | CallOutcome.raise e =>
      if is_503_error e then retryLoop func (backoff_ms.take max_retries) 1 e
      else (Except.error e, [])

/-- Classification of one call outcome as a transient (503) failure. -/
def transient503 (o : CallOutcome) : Bool :=
  match o with
  | CallOutcome.ok _ => false
  | CallOutcome.raise e => is_503_error e

/-! ## Theorems: queue claims -/

/-- Helper: a run of add_url calls that all fit under max_size is fully
accepted and appends the corresponding tasks in order. -/
theorem add_all_accepted (items : List (String × String × Nat)) :
    ∀ st : UrlQueue, st.queue.length + items.length ≤ st.max_size →
    ((add_all st items).1.all (fun r => r.success) = true ∧
     (add_all st items).2 =
       { st with queue :=
           st.queue ++ items.map (fun it => mkUrlTask it.1 it.2.1 it.2.2) }) := by
  induction items with
  | nil =>
      intro st _
      exact ⟨rfl, by simp [add_all]⟩
  | cons it rest ih =>
      intro st h
      have hn : ¬ st.queue.length ≥ st.max_size := by
        simp only [List.length_cons] at h
        omega
      have h2 : ({ st with queue := st.queue ++ [mkUrlTask it.1 it.2.1 it.2.2] } :
          UrlQueue).queue.length + rest.length ≤
          ({ st with queue := st.queue ++ [mkUrlTask it.1 it.2.1 it.2.2] } :
          UrlQueue).max_size := by
        simp only [List.length_cons] at h
        simp only [List.length_append, List.length_cons, List.length_nil]
        omega
      obtain ⟨ha, hb⟩ := ih _ h2
      have hadd : (add_url st it.1 it.2.1 it.2.2).2 =
          { st with queue := st.queue ++ [mkUrlTask it.1 it.2.1 it.2.2] } := by
        simp [add_url, hn]
      have hres : (add_url st it.1 it.2.1 it.2.2).1.success = true := by
        simp [add_url, hn]
      constructor
      · simp only [add_all, List.all_cons, hres, Bool.true_and]
        rw [hadd]
        exact ha
      · simp only [add_all]
        rw [hadd, hb]
        simp [List.append_assoc]

/-- Helper: draining a queue whose waiting list is l returns l in order. -/
theorem drain_spec (l : List UrlTask) : ∀ st : UrlQueue, st.queue = l →
    (drain st l.length).1 = l.map some := by
  induction l with
  | nil => intro st _; rfl
  | cons t rest ih =>
      intro st h
      obtain ⟨ms, q, p⟩ := st
      replace h : q = t :: rest := h
      subst h
      simp only [List.length_cons, drain, get_next_url, List.map_cons,
        List.cons.injEq, true_and]
      exact ih _ rfl

/-- Claim C1, counterexample: from an empty queue, accept two URLs and
dequeue once; the first job is recorded in-flight and not yet completed
and the waiting sequence is non-empty, yet a second dequeue() returns the
second job instead of empty. -/
theorem c1_second_dequeue_not_empty :
    (get_next_url (add_url (add_url ⟨5, [], none⟩ "u1" "s" 0).2 "u2" "s" 1).2).2.processing_task
        = some (mkUrlTask "u1" "s" 0) ∧
    (get_next_url (add_url (add_url ⟨5, [], none⟩ "u1" "s" 0).2 "u2" "s" 1).2).2.queue ≠ [] ∧
    (get_next_url (get_next_url (add_url (add_url ⟨5, [], none⟩ "u1" "s" 0).2 "u2" "s" 1).2).2).1
        = some (mkUrlTask "u2" "s" 1) := by
  refine ⟨rfl, ?_, rfl⟩
  decide

/-- Claim C1, amended: dequeue() ignores the in-flight marker; it returns
empty exactly when the waiting sequence is empty, and otherwise returns
the head waiting job and overwrites the in-flight marker with it (so a
second dequeue() before markCompleted of the first returns the next
waiting job, not empty, whenever the waiting sequence is non-empty). -/
theorem c1_dequeue_head (st : UrlQueue) :
    (st.queue = [] → get_next_url st = (none, st)) ∧
    (∀ t rest, st.queue = t :: rest →
      get_next_url st = (some t, { st with queue := rest, processing_task := some t })) := by
  obtain ⟨ms, q, p⟩ := st
  constructor
  · intro h
    replace h : q = [] := h
    subst h
    rfl
  · intro t rest h
    replace h : q = t :: rest := h
    subst h
    rfl

/-- Witness for c1_dequeue_head: with a job in flight and one waiting job,
dequeue returns the waiting job and replaces the in-flight marker. -/
theorem c1_dequeue_head_witness :
    get_next_url { max_size := 5, queue := [mkUrlTask "u2" "s" 1],
                   processing_task := some (mkUrlTask "u1" "s" 0) } =
      (some (mkUrlTask "u2" "s" 1),
       { max_size := 5, queue := [],
         processing_task := some (mkUrlTask "u2" "s" 1) }) :=
  (c1_dequeue_head _).2 _ _ rfl

/-- Claim C2: for every job obtained from dequeue, process_single_url
invokes mark_completed on that job's id exactly once, on every processing
outcome (success, handled failure, unhandled exception), and afterwards no
in-flight marker remains. -/
theorem c2_mark_completed_exactly_once (st : UrlQueue) (proc : UrlTask → ProcOutcome)
    (task : UrlTask) (st1 : UrlQueue)
    (h : get_next_url st = (some task, st1)) :
    (process_single_url st proc).2.2 = [task.task_id] ∧
    (process_single_url st proc).2.1.processing_task = none ∧
    (process_single_url st proc).1 = true := by
  obtain ⟨ms, q, p⟩ := st
  cases q with
  | nil => simp [get_next_url] at h
  | cons t rest =>
      simp only [get_next_url, Prod.mk.injEq, Option.some.injEq] at h
      obtain ⟨h1, h2⟩ := h
      subst h1
      simp only [process_single_url, get_next_url]
      cases proc t <;> simp [mark_completed]

/-- Witness for c2_mark_completed_exactly_once at a one-job queue with a
processor that raises. -/
theorem c2_mark_completed_exactly_once_witness :
    (process_single_url ⟨5, [mkUrlTask "u" "s" 0], none⟩
        (fun _ => ProcOutcome.raises "boom")).2.2 = [(mkUrlTask "u" "s" 0).task_id] ∧
    (process_single_url ⟨5, [mkUrlTask "u" "s" 0], none⟩
        (fun _ => ProcOutcome.raises "boom")).2.1.processing_task = none ∧
    (process_single_url ⟨5, [mkUrlTask "u" "s" 0], none⟩
        (fun _ => ProcOutcome.raises "boom")).1 = true :=
  c2_mark_completed_exactly_once _ _ (mkUrlTask "u" "s" 0)
    ⟨5, [], some (mkUrlTask "u" "s" 0)⟩ rfl

/-- Claim C3: add_url rejects with success=false and leaves the state
untouched exactly when the waiting list has reached max_size, and accepts
(appending the new task) when it has not; the embedded operation is a
total function, so enqueue never blocks. -/
theorem c3_queue_bound (st : UrlQueue) (u s : String) (now : Nat) :
    (st.queue.length ≥ st.max_size →
      add_url st u s now =
        ({ success := false, task_id := none, position := -1,
           queue_size := st.queue.length }, st)) ∧
    (st.queue.length < st.max_size →
      (add_url st u s now).1.success = true ∧
      (add_url st u s now).2 = { st with queue := st.queue ++ [mkUrlTask u s now] }) := by
  constructor
  · intro h
    simp [add_url, h]
  · intro h
    have hn : ¬ st.queue.length ≥ st.max_size := Nat.not_le.mpr h
    simp [add_url, hn]

/-- Witness for c3_queue_bound: a full queue (max_size 1) rejects without
change; an empty queue accepts. -/
theorem c3_queue_bound_witness :
    add_url { max_size := 1, queue := [mkUrlTask "u" "s" 0], processing_task := none }
        "v" "t" 1 =
      ({ success := false, task_id := none, position := -1, queue_size := 1 },
       { max_size := 1, queue := [mkUrlTask "u" "s" 0], processing_task := none }) ∧
    (add_url { max_size := 1, queue := [], processing_task := none } "v" "t" 1).1.success
      = true :=
  ⟨(c3_queue_bound _ "v" "t" 1).1 (by decide),
   ((c3_queue_bound _ "v" "t" 1).2 (by decide)).1⟩

/-- Claim C4: N enqueues into an initially empty waiting list, all within
capacity, are all accepted, and N subsequent dequeues return exactly those
jobs in enqueue order (FIFO). -/
theorem c4_fifo_order (st : UrlQueue) (items : List (String × String × Nat))
    (h0 : st.queue = []) (hlen : items.length ≤ st.max_size) :
    ((add_all st items).1.all (fun r => r.success) = true) ∧
    (drain (add_all st items).2 items.length).1 =
      items.map (fun it => some (mkUrlTask it.1 it.2.1 it.2.2)) := by
  have h : st.queue.length + items.length ≤ st.max_size := by
    rw [h0]
    simpa using hlen
  obtain ⟨ha, hb⟩ := add_all_accepted items st h
  refine ⟨ha, ?_⟩
  have hq : (add_all st items).2.queue =
      items.map (fun it => mkUrlTask it.1 it.2.1 it.2.2) := by
    rw [hb]
    simp [h0]
  have hd := drain_spec (items.map (fun it => mkUrlTask it.1 it.2.1 it.2.2))
    (add_all st items).2 hq
  rw [List.length_map] at hd
  rw [hd, List.map_map]
  rfl

/-- Witness for c4_fifo_order on two accepted enqueues. -/
theorem c4_fifo_order_witness :
    ((add_all { max_size := 5, queue := [], processing_task := none }
        [("u1", "s", 0), ("u2", "s", 1)]).1.all (fun r => r.success) = true) ∧
    (drain (add_all { max_size := 5, queue := [], processing_task := none }
        [("u1", "s", 0), ("u2", "s", 1)]).2 2).1 =
      [some (mkUrlTask "u1" "s" 0), some (mkUrlTask "u2" "s" 1)] :=
  c4_fifo_order _ [("u1", "s", 0), ("u2", "s", 1)] rfl (by decide)

/-- Claim C5: mark_completed returns true and clears the in-flight slot
exactly when the given id matches the recorded in-flight job; on a
mismatching id, or when nothing is in flight, it returns false and leaves
the whole state unchanged. -/
theorem c5_mark_completed_iff_inflight (st : UrlQueue) (tid : String) :
    (∀ t, st.processing_task = some t → t.task_id = tid →
      mark_completed st tid = (true, { st with processing_task := none })) ∧
    (∀ t, st.processing_task = some t → t.task_id ≠ tid →
      mark_completed st tid = (false, st)) ∧
    (st.processing_task = none → mark_completed st tid = (false, st)) := by
  obtain ⟨ms, q, p⟩ := st
  refine ⟨?_, ?_, ?_⟩
  · intro t hp he
    replace hp : p = some t := hp
    subst hp
    simp [mark_completed, he]
  · intro t hp he
    replace hp : p = some t := hp
    subst hp
    simp [mark_completed, he]
  · intro hp
    replace hp : p = none := hp
    subst hp
    rfl

/-- Witness for c5_mark_completed_iff_inflight: a matching id completes
and clears; a stale id on an idle queue changes nothing. -/
theorem c5_mark_completed_iff_inflight_witness :
    mark_completed ⟨5, [], some (mkUrlTask "u" "s" 0)⟩ "s_0" =
      (true, ⟨5, [], none⟩) ∧
    mark_completed ⟨5, [], none⟩ "s_0" = (false, ⟨5, [], none⟩) :=
  ⟨(c5_mark_completed_iff_inflight _ "s_0").1 (mkUrlTask "u" "s" 0) rfl (by decide),
   (c5_mark_completed_iff_inflight _ "s_0").2.2 rfl⟩

/-! ## Theorems: retry_on_503 (C10) -/

/-- Helper: inside the retry loop, if the first j outcomes (from idx) are
transient and the j-th call succeeds, the loop returns that value having
slept the first j+1 scheduled delays (the sleep precedes each call). -/
theorem retryLoop_ok (func : Nat → CallOutcome) :
    ∀ (sched : List Nat) (j idx : Nat) (last v : String),
      j < sched.length →
      (∀ i, i < j → transient503 (func (idx + i)) = true) →
      func (idx + j) = CallOutcome.ok v →
      retryLoop func sched idx last = (Except.ok v, sched.take (j + 1)) := by
  intro sched
  induction sched with
  | nil =>
      intro j idx last v hj
      simp at hj
  | cons d rest ih =>
      intro j idx last v hj htr hok
      cases j with
      | zero =>
          rw [Nat.add_zero] at hok
          simp [retryLoop, hok]
      | succ j' =>
          have h0 : transient503 (func idx) = true := by
            have := htr 0 (by omega)
            simpa using this
          cases hf : func idx with
          | ok v0 => rw [hf] at h0; simp [transient503] at h0
          | raise e =>
              rw [hf] at h0
              simp only [transient503] at h0
              have hrec := ih j' (idx + 1) e v (by simpa using hj)
                (fun i hi => by
                  have := htr (i + 1) (by omega)
                  have hx : idx + (i + 1) = idx + 1 + i := by omega
                  rw [hx] at this
                  exact this)
                (by
                  have hx : idx + (j' + 1) = idx + 1 + j' := by omega
                  rw [hx] at hok
                  exact hok)
              simp [retryLoop, hf, h0, hrec]

/-- Helper: if the first j outcomes (from idx) are transient and the j-th
call raises a non-503 error, the loop re-raises it immediately, having
slept the first j+1 scheduled delays. -/
theorem retryLoop_fatal (func : Nat → CallOutcome) :
    ∀ (sched : List Nat) (j idx : Nat) (last e : String),
      j < sched.length →
      (∀ i, i < j → transient503 (func (idx + i)) = true) →
      func (idx + j) = CallOutcome.raise e → is_503_error e = false →
      retryLoop func sched idx last = (Except.error e, sched.take (j + 1)) := by
  intro sched
  induction sched with
  | nil =>
      intro j idx last e hj
      simp at hj
  | cons d rest ih =>
      intro j idx last e hj htr hraise h5
      cases j with
      | zero =>
          rw [Nat.add_zero] at hraise
          simp [retryLoop, hraise, h5]
      | succ j' =>
          have h0 : transient503 (func idx) = true := by
            have := htr 0 (by omega)
            simpa using this
          cases hf : func idx with
          | ok v0 => rw [hf] at h0; simp [transient503] at h0
          | raise e0 =>
              rw [hf] at h0
              simp only [transient503] at h0
              have hrec := ih j' (idx + 1) e0 e (by simpa using hj)
                (fun i hi => by
                  have := htr (i + 1) (by omega)
                  have hx : idx + (i + 1) = idx + 1 + i := by omega
                  rw [hx] at this
                  exact this)
                (by
                  have hx : idx + (j' + 1) = idx + 1 + j' := by omega
                  rw [hx] at hraise
                  exact hraise)
                h5
              simp [retryLoop, hf, h0, hrec]

/-- Helper: if every scheduled call raises a 503, the loop sleeps the
whole schedule and re-raises the error of the last call. -/
theorem retryLoop_exhaust (func : Nat → CallOutcome) :
    ∀ (sched : List Nat) (idx : Nat) (last : String) (es : Nat → String),
      sched ≠ [] →
      (∀ i, i < sched.length →
        func (idx + i) = CallOutcome.raise (es i) ∧ is_503_error (es i) = true) →
      retryLoop func sched idx last =
        (Except.error (es (sched.length - 1)), sched) := by
  intro sched
  induction sched with
  | nil => intro idx last es hne; exact absurd rfl hne
  | cons d rest ih =>
      intro idx last es _ h
      obtain ⟨hf, h5⟩ := h 0 (by simp)
      rw [Nat.add_zero] at hf
      by_cases hrest : rest = []
      · subst hrest
        simp [retryLoop, hf, h5]
      · have hrec := ih (idx + 1) (es 0) (fun i => es (i + 1)) hrest
          (fun i hi => by
            have := h (i + 1) (by simpa using Nat.succ_lt_succ hi)
            have hx : idx + (i + 1) = idx + 1 + i := by omega
            rw [hx] at this
            exact this)
        simp only at hrec
        have hpos : rest.length ≠ 0 := fun hh => hrest (List.length_eq_zero.mp hh)
        have hidx : rest.length - 1 + 1 = (d :: rest).length - 1 := by
          simp only [List.length_cons]
          omega
        rw [hidx] at hrec
        simp [retryLoop, hf, h5, hrec]

/-- Claim C10: retry_on_503 returns an immediate success as-is; propagates
a first-call fatal (non-503) error with no retry and no sleeps; after k
transient failures a success (or fatal error) at call k is returned (or
propagated) having slept the first k delays of backoff_ms[:max_retries];
and when every call in the budget fails transiently, the last transient
error is propagated after sleeping the whole schedule. -/
theorem c10_retry_on_503 (func : Nat → CallOutcome) (max_retries : Nat)
    (backoff_ms : List Nat) :
    (∀ v, func 0 = CallOutcome.ok v →
        retry_on_503 func max_retries backoff_ms = (Except.ok v, [])) ∧
    (∀ e, func 0 = CallOutcome.raise e → is_503_error e = false →
        retry_on_503 func max_retries backoff_ms = (Except.error e, [])) ∧
    (∀ k v, 0 < k → k ≤ (backoff_ms.take max_retries).length →
        (∀ i, i < k → transient503 (func i) = true) →
        func k = CallOutcome.ok v →
        retry_on_503 func max_retries backoff_ms =
          (Except.ok v, (backoff_ms.take max_retries).take k)) ∧
    (∀ k e, 0 < k → k ≤ (backoff_ms.take max_retries).length →
        (∀ i, i < k → transient503 (func i) = true) →
        func k = CallOutcome.raise e → is_503_error e = false →
        retry_on_503 func max_retries backoff_ms =
          (Except.error e, (backoff_ms.take max_retries).take k)) ∧
    (∀ es : Nat → String,
        (∀ i, i ≤ (backoff_ms.take max_retries).length →
          func i = CallOutcome.raise (es i) ∧ is_503_error (es i) = true) →
        retry_on_503 func max_retries backoff_ms =
          (Except.error (es (backoff_ms.take max_retries).length),
           backoff_ms.take max_retries)) := by
  refine ⟨?_, ?_, ?_, ?_, ?_⟩
  · intro v h
    simp [retry_on_503, h]
  · intro e h h5
    simp [retry_on_503, h, h5]
  · intro k v hk hkle htr hok
    have h0 : transient503 (func 0) = true := htr 0 hk
    cases hf : func 0 with
    | ok v0 => rw [hf] at h0; simp [transient503] at h0
    | raise e0 =>
        rw [hf] at h0
        simp only [transient503] at h0
        obtain ⟨j, rfl⟩ : ∃ j, k = j + 1 := ⟨k - 1, by omega⟩
        have hrec := retryLoop_ok func (backoff_ms.take max_retries) j 1 e0 v
          (by omega)
          (fun i hi => by
            have := htr (i + 1) (by omega)
            have hx : (1 : Nat) + i = i + 1 := by omega
            rw [hx]
            exact this)
          (by
            have hx : (1 : Nat) + j = j + 1 := by omega
            rw [hx]
            exact hok)
        simp [retry_on_503, hf, h0, hrec]
  · intro k e hk hkle htr hraise h5
    have h0 : transient503 (func 0) = true := htr 0 hk
    cases hf : func 0 with
    | ok v0 => rw [hf] at h0; simp [transient503] at h0
    | raise e0 =>
        rw [hf] at h0
        simp only [transient503] at h0
        obtain ⟨j, rfl⟩ : ∃ j, k = j + 1 := ⟨k - 1, by omega⟩
        have hrec := retryLoop_fatal func (backoff_ms.take max_retries) j 1 e0 e
          (by omega)
          (fun i hi => by
            have := htr (i + 1) (by omega)
            have hx : (1 : Nat) + i = i + 1 := by omega
            rw [hx]
            exact this)
          (by
            have hx : (1 : Nat) + j = j + 1 := by omega
            rw [hx]
            exact hraise)
          h5
        simp [retry_on_503, hf, h0, hrec]
  · intro es h
    obtain ⟨hf0, h50⟩ := h 0 (by omega)
    by_cases hsched : backoff_ms.take max_retries = []
    · rw [hsched]
      simp [retry_on_503, hf0, h50, hsched, retryLoop]
    · have hrec := retryLoop_exhaust func (backoff_ms.take max_retries) 1 (es 0)
        (fun i => es (i + 1)) hsched
        (fun i hi => by
          have := h (i + 1) (by omega)
          have hx : (1 : Nat) + i = i + 1 := by omega
          rw [hx]
          exact this)
      simp only at hrec
      have hpos : (backoff_ms.take max_retries).length ≠ 0 := by
        simpa [List.length_eq_zero] using hsched
      have hlen : (backoff_ms.take max_retries).length - 1 + 1 =
          (backoff_ms.take max_retries).length := by omega
      rw [hlen] at hrec
      simp [retry_on_503, hf0, h50, hrec]

/-- Witness for c10_retry_on_503: two 503 failures then a success, under
the reference schedule [1000, 2000, 4000] ms with max_retries = 3, return
the success after sleeping 1000 and 2000 ms. -/
theorem c10_retry_on_503_witness :
    retry_on_503
      (fun i => if i < 2 then CallOutcome.raise "503 unavailable" else CallOutcome.ok "v")
      3 [1000, 2000, 4000] = (Except.ok "v", [1000, 2000]) :=
  (c10_retry_on_503
      (fun i => if i < 2 then CallOutcome.raise "503 unavailable" else CallOutcome.ok "v")
      3 [1000, 2000, 4000]).2.2.1 2 "v" (by decide) (by decide)
    (fun i hi => by interval_cases i <;> decide) (by decide)

/-! ## Theorems: run_resources (C9) -/

/-- Membership in the set-insert model. -/
theorem mem_insertNew (x y : String) (l : List String) :
    x ∈ insertNew y l ↔ x ∈ l ∨ x = y := by
  unfold insertNew
  split
  next hy =>
    constructor
    · exact fun hx => Or.inl hx
    · rintro (hx | rfl)
      · exact hx
      · exact hy
  next hy =>
    simp [List.mem_append]

/-- The set-insert model preserves freedom from duplicates. -/
theorem insertNew_nodup (y : String) (l : List String) (h : l.Nodup) :
    (insertNew y l).Nodup := by
  unfold insertNew
  split
  · exact h
  next hy => simp [List.nodup_append, h, hy]

/-- Folding any Nodup-preserving accumulator step preserves Nodup. -/
theorem foldl_nodup {α : Type} (f : List String → α → List String)
    (hf : ∀ acc a, acc.Nodup → (f acc a).Nodup) :
    ∀ (l : List α) (acc : List String), acc.Nodup → (l.foldl f acc).Nodup := by
  intro l
  induction l with
  | nil => intro acc h; exact h
  | cons a l ih => intro acc h; exact ih _ (hf acc a h)

/-- addLink preserves Nodup. -/
theorem addLink_nodup (acc : List String) (link : String) (h : acc.Nodup) :
    (addLink acc link).Nodup := by
  simp only [addLink]
  split
  · exact h
  · exact insertNew_nodup _ _ h

/-- addLine preserves Nodup. -/
theorem addLine_nodup (acc : List String) (lineCs : List Char) (h : acc.Nodup) :
    (addLine acc lineCs).Nodup := by
  simp only [addLine]
  split
  · exact h
  · split
    · exact insertNew_nodup _ _ h
    · exact h

/-- Anything in the folded CLEAN-links set is either from the seed or the
strip of one of the links. -/
theorem foldl_addLink_mem :
    ∀ (l : List String) (acc : List String) (x : String),
      x ∈ l.foldl addLink acc →
      x ∈ acc ∨ ∃ y, y ∈ l ∧ x = String.mk (pstrip y.toList) := by
  intro l
  induction l with
  | nil => intro acc x hx; exact Or.inl hx
  | cons a l ih =>
      intro acc x hx
      rcases ih _ x hx with hx' | ⟨y, hy, hxy⟩
      · simp only [addLink] at hx'
        by_cases ht : pstrip a.toList = []
        · rw [if_pos ht] at hx'
          exact Or.inl hx'
        · rw [if_neg ht] at hx'
          rcases (mem_insertNew _ _ _).mp hx' with h1 | h1
          · exact Or.inl h1
          · exact Or.inr ⟨a, by simp, h1⟩
      · exact Or.inr ⟨y, List.mem_cons_of_mem _ hy, hxy⟩

/-- addLink keeps existing members. -/
theorem mem_addLink_of_mem (acc : List String) (a x : String) (hx : x ∈ acc) :
    x ∈ addLink acc a := by
  simp only [addLink]
  split
  · exact hx
  · exact (mem_insertNew _ _ _).mpr (Or.inl hx)

/-- The links fold keeps existing members. -/
theorem foldl_addLink_of_mem :
    ∀ (l : List String) (acc : List String) (x : String), x ∈ acc →
      x ∈ l.foldl addLink acc := by
  intro l
  induction l with
  | nil => intro acc x hx; exact hx
  | cons a l ih => intro acc x hx; exact ih _ x (mem_addLink_of_mem acc a x hx)

/-- Every link of the input with a non-empty strip ends up in the folded
set. -/
theorem foldl_addLink_strip_mem :
    ∀ (l : List String) (acc : List String) (y : String), y ∈ l →
      pstrip y.toList ≠ [] →
      String.mk (pstrip y.toList) ∈ l.foldl addLink acc := by
  intro l
  induction l with
  | nil => intro acc y hy; exact absurd hy (List.not_mem_nil y)
  | cons a l ih =>
      intro acc y hy hne
      rcases List.mem_cons.mp hy with rfl | hy'
      · rw [List.foldl_cons]
        apply foldl_addLink_of_mem
        unfold addLink
        rw [if_neg hne]
        exact (mem_insertNew _ _ _).mpr (Or.inr rfl)
      · exact ih _ y hy' hne

/-- A list that leads with p starts with p's head. -/
theorem leads_head {p : Char} {ps cs : List Char}
    (h : leadsWith (p :: ps) cs = true) : ∃ cs', cs = p :: cs' := by
  cases cs with
  | nil => simp [leadsWith] at h
  | cons c cs' =>
      by_cases hpc : p = c
      · subst hpc
        exact ⟨cs', rfl⟩
      · simp [leadsWith, hpc] at h

/-- A member not satisfying p survives dropWhile p. -/
theorem mem_dropWhile_of_neg {p : Char → Bool} {c : Char} :
    ∀ {l : List Char}, c ∈ l → p c = false → c ∈ l.dropWhile p := by
  intro l
  induction l with
  | nil => intro hc _; exact absurd hc (List.not_mem_nil c)
  | cons a l ih =>
      intro hc hpc
      rw [List.dropWhile_cons]
      split
      next hpa =>
        rcases List.mem_cons.mp hc with rfl | hc'
        · rw [hpc] at hpa
          exact absurd hpa (by simp)
        · exact ih hc' hpc
      · exact hc

/-- A list containing a non-whitespace character has a non-empty strip. -/
theorem pstrip_ne_nil_of_mem {cs : List Char} {c : Char} (hc : c ∈ cs)
    (hw : c.isWhitespace = false) : pstrip cs ≠ [] := by
  unfold pstrip
  intro h
  have h1 : c ∈ cs.dropWhile Char.isWhitespace := mem_dropWhile_of_neg hc hw
  have h2 : c ∈ (cs.dropWhile Char.isWhitespace).reverse := by simpa using h1
  have h3 : c ∈ (cs.dropWhile Char.isWhitespace).reverse.dropWhile Char.isWhitespace :=
    mem_dropWhile_of_neg h2 hw
  rw [List.reverse_eq_nil_iff] at h
  rw [h] at h3
  exact absurd h3 (List.not_mem_nil c)

/-- A string starting with http:// or https:// strips to a non-empty
list. -/
theorem http_strip_ne (l : String)
    (h : leadsWith "http://".toList l.toList = true ∨
         leadsWith "https://".toList l.toList = true) :
    pstrip l.toList ≠ [] := by
  have hlit : "http://".toList = 'h' :: "ttp://".toList := by decide
  have hlit2 : "https://".toList = 'h' :: "ttps://".toList := by decide
  rcases h with h | h
  · rw [hlit] at h
    obtain ⟨cs', hcs⟩ := leads_head h
    refine pstrip_ne_nil_of_mem (c := 'h') ?_ (by decide)
    rw [hcs]
    simp
  · rw [hlit2] at h
    obtain ⟨cs', hcs⟩ := leads_head h
    refine pstrip_ne_nil_of_mem (c := 'h') ?_ (by decide)
    rw [hcs]
    simp

/-- Claim C9: the run_resources output never contains duplicate strings;
and when the links list handed over by the CLEAN stage is non-empty (CLEAN
guarantees every element starts with http:// or https://), the model is
not called and the output is exactly the stripped links. -/
theorem c9_resources (call : String → ModelResult) (ct : String)
    (links : List String) :
    (run_resources call ct links).1.Nodup ∧
    (links ≠ [] →
      (∀ l, l ∈ links → leadsWith "http://".toList l.toList = true ∨
                        leadsWith "https://".toList l.toList = true) →
      (run_resources call ct links).2 = false ∧
      (∀ x, x ∈ (run_resources call ct links).1 →
        ∃ l, l ∈ links ∧ x = String.mk (pstrip l.toList)) ∧
      (∀ l, l ∈ links → pstrip l.toList ≠ [] →
        String.mk (pstrip l.toList) ∈ (run_resources call ct links).1)) := by
  have hs1 : (links.foldl addLink []).Nodup :=
    foldl_nodup addLink addLink_nodup links [] List.nodup_nil
  constructor
  · by_cases h1 : links.foldl addLink [] = []
    · simp only [run_resources, if_pos h1]
      split
      · exact foldl_nodup addLine addLine_nodup _ _ hs1
      · exact hs1
    · simp only [run_resources, if_neg h1]
      exact hs1
  · intro hne hhttp
    obtain ⟨a, ha⟩ := List.exists_mem_of_ne_nil links hne
    have hmem := foldl_addLink_strip_mem links [] a ha (http_strip_ne a (hhttp a ha))
    have h1 : links.foldl addLink [] ≠ [] := List.ne_nil_of_mem hmem
    have hrun : run_resources call ct links = (links.foldl addLink [], false) := by
      simp only [run_resources, if_neg h1]
    rw [hrun]
    refine ⟨rfl, ?_, ?_⟩
    · intro x hx
      rcases foldl_addLink_mem links [] x hx with hx0 | hx1
      · exact absurd hx0 (List.not_mem_nil x)
      · exact hx1
    · intro l hl hlne
      exact foldl_addLink_strip_mem links [] l hl hlne

/-- Witness for c9_resources: two copies of the same CLEAN link produce a
single-element, duplicate-free output without consulting the model. -/
theorem c9_resources_witness :
    (run_resources (fun _ => ⟨true, "x", none⟩) "t" ["http://a", "http://a"]).1.Nodup ∧
    (run_resources (fun _ => ⟨true, "x", none⟩) "t" ["http://a", "http://a"]).2 = false :=
  ⟨(c9_resources _ _ _).1,
   ((c9_resources (fun _ => ⟨true, "x", none⟩) "t" ["http://a", "http://a"]).2
      (by decide)
      (fun l hl => by
        rcases List.mem_cons.mp hl with rfl | hl'
        · exact Or.inl (by decide)
        · rcases List.mem_cons.mp hl' with rfl | hl''
          · exact Or.inl (by decide)
          · exact absurd hl'' (List.not_mem_nil l))).1⟩

/-! ## Theorems: run_short_300 (C7) -/

/-- String.mk preserves length. -/
theorem length_mk (l : List Char) : (String.mk l).length = l.length := rfl

/-- The last-occurrence index is inside the list. -/
theorem lastIdxOf_lt_length {c : Char} : ∀ {l : List Char} {i : Nat},
    lastIdxOf c l = some i → i < l.length := by
  intro l
  induction l with
  | nil => intro i h; simp [lastIdxOf] at h
  | cons x xs ih =>
      intro i h
      simp only [lastIdxOf] at h
      cases hx : lastIdxOf c xs with
      | some k =>
          rw [hx] at h
          simp only [Option.some.injEq] at h
          have := ih hx
          simp only [List.length_cons]
          omega
      | none =>
          rw [hx] at h
          by_cases hc : x = c
          · rw [if_pos hc] at h
            simp only [Option.some.injEq] at h
            simp only [List.length_cons]
            omega
          · rw [if_neg hc] at h
            exact absurd h (by simp)

/-- Claim C7, counterexample to the stated 50-character window: a stripped
301-character response whose 300-character prefix has its last space at
index 250 — inside the last 50 characters of the window (indices 250..299)
— is hard-cut to 300 characters by the code instead of being cut at that
word boundary. -/
theorem c7_hard_cut_at_boundary_250 :
    (pstrip (String.mk (List.replicate 250 'a' ++ ' ' :: List.replicate 50 'b')).toList).length
      = 301 ∧
    lastIdxOf ' '
      ((pstrip (String.mk (List.replicate 250 'a' ++ ' ' :: List.replicate 50 'b')).toList).take 300)
      = some 250 ∧
    300 - 50 ≤ 250 ∧
    (run_short_300
      (fun _ => ⟨true, String.mk (List.replicate 250 'a' ++ ' ' :: List.replicate 50 'b'), none⟩)
      "in").length = 300 := by
  set_option maxRecDepth 4000 in
  refine ⟨by decide, by decide, by decide, by decide⟩

/-- Claim C7, amended: the output of run_short_300 never exceeds 300
characters; a stripped response longer than 300 characters is cut at the
last space of its 300-character prefix when that space sits at an index
strictly greater than 250 (i.e. strictly inside the last 49 characters of
the window), and is hard-cut at 300 characters otherwise (no space, or
last space at index at most 250). -/
theorem c7_short_cap (call : String → ModelResult) (ct : String) :
    (run_short_300 call ct).length ≤ 300 ∧
    ((call ct).ok = true →
      (pstrip (call ct).text.toList).length > 300 →
      (∀ i, lastIdxOf ' ' ((pstrip (call ct).text.toList).take 300) = some i → i > 250 →
        run_short_300 call ct = String.mk ((pstrip (call ct).text.toList).take i)) ∧
      (∀ i, lastIdxOf ' ' ((pstrip (call ct).text.toList).take 300) = some i → i ≤ 250 →
        run_short_300 call ct = String.mk ((pstrip (call ct).text.toList).take 300)) ∧
      (lastIdxOf ' ' ((pstrip (call ct).text.toList).take 300) = none →
        run_short_300 call ct = String.mk ((pstrip (call ct).text.toList).take 300))) := by
  constructor
  · unfold run_short_300
    cases hok : (call ct).ok with
    | false => simp [hok]
    | true =>
        simp only [hok, Bool.true_eq_false, if_false]
        by_cases hlen : (pstrip (call ct).text.toList).length > 300
        · rw [if_pos hlen]
          cases hidx : lastIdxOf ' ' ((pstrip (call ct).text.toList).take 300) with
          | none =>
              dsimp only
              simp only [length_mk, List.length_take]
              omega
          | some i =>
              dsimp only
              by_cases hi : i > 250
              · rw [if_pos hi]
                have hlt := lastIdxOf_lt_length hidx
                simp only [List.length_take] at hlt
                simp only [length_mk, List.length_take]
                omega
              · rw [if_neg hi]
                simp only [length_mk, List.length_take]
                omega
        · rw [if_neg hlen]
          simp only [length_mk]
          omega
  · intro hok hlen
    have hunfold : run_short_300 call ct =
        (match lastIdxOf ' ' ((pstrip (call ct).text.toList).take 300) with
         | some i =>
             if i > 250 then String.mk (((pstrip (call ct).text.toList).take 300).take i)
             else String.mk ((pstrip (call ct).text.toList).take 300)
         | none => String.mk ((pstrip (call ct).text.toList).take 300)) := by
      unfold run_short_300
      simp only [hok, Bool.true_eq_false, if_false, if_pos hlen]
    refine ⟨?_, ?_, ?_⟩
    · intro i hidx hi
      have hlt := lastIdxOf_lt_length hidx
      simp only [List.length_take] at hlt
      rw [hunfold, hidx]
      dsimp only
      rw [if_pos hi]
      rw [List.take_take]
      have hmin : min i 300 = i := by omega
      rw [hmin]
    · intro i hidx hi
      rw [hunfold, hidx]
      dsimp only
      rw [if_neg (by omega : ¬ i > 250)]
    · intro hidx
      rw [hunfold, hidx]

/-- Witness for c7_short_cap: a 321-character stripped response with its
last space at index 260 is cut at that space. -/
theorem c7_short_cap_witness :
    run_short_300
      (fun _ => ⟨true, String.mk (List.replicate 260 'a' ++ ' ' :: List.replicate 60 'b'), none⟩)
      "in" =
      String.mk
        ((pstrip (String.mk (List.replicate 260 'a' ++ ' ' :: List.replicate 60 'b')).toList).take 260) ∧
    (run_short_300
      (fun _ => ⟨true, String.mk (List.replicate 260 'a' ++ ' ' :: List.replicate 60 'b'), none⟩)
      "in").length ≤ 300 := by
  set_option maxRecDepth 40000 in
  exact ⟨(((c7_short_cap
      (fun _ => ⟨true, String.mk (List.replicate 260 'a' ++ ' ' :: List.replicate 60 'b'), none⟩)
      "in").2 rfl (by decide)).1 260 (by decide) (by decide)),
   (c7_short_cap
      (fun _ => ⟨true, String.mk (List.replicate 260 'a' ++ ' ' :: List.replicate 60 'b'), none⟩)
      "in").1⟩

/-! ## Theorems: run_clean (C6) -/

/-- Claim C6: when the first model response is not parseable JSON (even
after the brace-substring repair) and the single clarification retry's
response is likewise unparseable (after its own repair), run_clean returns
the invalid_json error with the clean text and links output fields empty
(raw keeps the first response for diagnostics). -/
theorem c6_clean_invalid_json (call : String → ModelResult)
    (jsonParse : String → Option JsonVal) (transcript : String)
    (h1ok : (call transcript).ok = true)
    (hp1 : parseWithRepair jsonParse (call transcript).text = none)
    (h2ok : (call (transcript ++ "\n\n" ++ clarification)).ok = true)
    (hp2 : parseWithRepair jsonParse
      (call (transcript ++ "\n\n" ++ clarification)).text = none) :
    run_clean call jsonParse transcript =
      Except.ok { clean := "", links := [], raw := (call transcript).text,
                  error := some { code := "invalid_json",
                                  detail := "JSON parse error" } } := by
  unfold run_clean
  dsimp only
  rw [h1ok]
  simp only [Bool.true_eq_false, if_false, hp1, h2ok, if_true, hp2]

/-- Witness for c6_clean_invalid_json: a parser that never accepts and a
model that answers brace-free prose twice. -/
theorem c6_clean_invalid_json_witness :
    run_clean
      (fun s => if s = "t" then ⟨true, "no json here", none⟩ else ⟨true, "still none", none⟩)
      (fun _ => none) "t" =
      Except.ok { clean := "", links := [], raw := "no json here",
                  error := some { code := "invalid_json",
                                  detail := "JSON parse error" } } := by
  have h := c6_clean_invalid_json
    (fun s => if s = "t" then ⟨true, "no json here", none⟩ else ⟨true, "still none", none⟩)
    (fun _ => none) "t" (by decide) rfl (by decide) rfl
  simpa using h

/-! ## Theorems: run_middle_10 (C8) -/

/-- splitOnPred never returns the empty list of segments. -/
theorem splitOnPred_ne_nil (p : Char → Bool) : ∀ cs : List Char,
    splitOnPred p cs ≠ [] := by
  intro cs
  cases cs with
  | nil => simp [splitOnPred]
  | cons x xs =>
      unfold splitOnPred
      split
      · simp
      · split
        · simp
        · simp

/-- dropWhile either empties the list or exposes a head not satisfying p. -/
theorem dropWhile_shape (p : Char → Bool) :
    ∀ l : List Char, l.dropWhile p = [] ∨
      ∃ a t, l.dropWhile p = a :: t ∧ p a = false := by
  intro l
  induction l with
  | nil => exact Or.inl rfl
  | cons x xs ih =>
      rw [List.dropWhile_cons]
      split
      · exact ih
      next hx => exact Or.inr ⟨x, xs, rfl, by simpa using hx⟩

/-- Stripping is unaffected by a leading whitespace character. -/
theorem pstrip_cons_ws {c : Char} (hw : c.isWhitespace = true) (l : List Char) :
    pstrip (c :: l) = pstrip l := by
  unfold pstrip
  rw [List.dropWhile_cons_of_pos hw]

/-- Stripping is idempotent. -/
theorem pstrip_idem (l : List Char) : pstrip (pstrip l) = pstrip l := by
  unfold pstrip
  generalize hA : l.dropWhile Char.isWhitespace = A
  generalize hB : A.reverse.dropWhile Char.isWhitespace = B
  have hBfix : B.dropWhile Char.isWhitespace = B := by
    rcases dropWhile_shape Char.isWhitespace A.reverse with h0 | ⟨a, t, hEq, ha⟩
    · rw [hB] at h0
      rw [h0]
      rfl
    · rw [hB] at hEq
      rw [hEq]
      exact List.dropWhile_cons_of_neg (by simp [ha])
  have hBrev : B.reverse.dropWhile Char.isWhitespace = B.reverse := by
    cases hBr : B.reverse with
    | nil => rfl
    | cons a t =>
        have h1 : A.reverse.takeWhile Char.isWhitespace ++ B = A.reverse := by
          rw [← hB]
          exact List.takeWhile_append_dropWhile _ _
        have hdecomp : B.reverse ++ (A.reverse.takeWhile Char.isWhitespace).reverse = A := by
          rw [← List.reverse_append, h1, List.reverse_reverse]
        rw [hBr] at hdecomp
        have hAne : A = a :: (t ++ (A.reverse.takeWhile Char.isWhitespace).reverse) :=
          hdecomp.symm
        rcases dropWhile_shape Char.isWhitespace l with h0 | ⟨a', t', hEq, ha'⟩
        · rw [hA] at h0
          rw [h0] at hAne
          exact absurd hAne (by simp)
        · rw [hA] at hEq
          have hcons : a' :: t' = a :: (t ++ (A.reverse.takeWhile Char.isWhitespace).reverse) :=
            hEq.symm.trans hAne
          have haa : a' = a := by injection hcons
          rw [haa] at ha'
          exact List.dropWhile_cons_of_neg (by simp [ha'])
  rw [hBrev, List.reverse_reverse, hBfix]

/-- Characters of the strip come from the original list. -/
theorem mem_pstrip {c : Char} {l : List Char} (h : c ∈ pstrip l) : c ∈ l := by
  unfold pstrip at h
  have h1 := List.mem_reverse.mp h
  have h2 := (List.dropWhile_sublist Char.isWhitespace).subset h1
  have h3 := List.mem_reverse.mp h2
  exact (List.dropWhile_sublist Char.isWhitespace).subset h3

/-- Segments produced by splitOnPred contain no separator characters. -/
theorem splitOnPred_no_sep (p : Char → Bool) :
    ∀ (cs : List Char) (seg : List Char), seg ∈ splitOnPred p cs →
      ∀ c ∈ seg, p c = false := by
  intro cs
  induction cs with
  | nil =>
      intro seg hseg c hc
      simp [splitOnPred] at hseg
      subst hseg
      exact absurd hc (List.not_mem_nil c)
  | cons x xs ih =>
      intro seg hseg c hc
      unfold splitOnPred at hseg
      by_cases hx : p x = true
      · rw [if_pos hx] at hseg
        rcases List.mem_cons.mp hseg with rfl | hseg'
        · exact absurd hc (List.not_mem_nil c)
        · exact ih seg hseg' c hc
      · rw [if_neg hx] at hseg
        cases hsp : splitOnPred p xs with
        | nil => exact absurd hsp (splitOnPred_ne_nil p xs)
        | cons seg0 segs =>
            rw [hsp] at hseg
            rcases List.mem_cons.mp hseg with rfl | hseg'
            · rcases List.mem_cons.mp hc with rfl | hc'
              · simpa using hx
              · exact ih seg0 (by rw [hsp]; exact List.mem_cons_self seg0 segs) c hc'
            · exact ih seg (by rw [hsp]; exact List.mem_cons_of_mem seg0 hseg') c hc

/-- Unfolding equation of splitOnPred at a separator head. -/
theorem splitOnPred_cons_of_pos (p : Char → Bool) (a : Char) (xs : List Char)
    (ha : p a = true) :
    splitOnPred p (a :: xs) = [] :: splitOnPred p xs := by
  conv_lhs => rw [splitOnPred]
  rw [if_pos ha]

/-- Unfolding equation of splitOnPred at a non-separator head. -/
theorem splitOnPred_cons_of_neg (p : Char → Bool) (a : Char) (xs : List Char)
    (ha : p a = false) :
    splitOnPred p (a :: xs) =
      (match splitOnPred p xs with
       | [] => [[a]]
       | seg :: segs => (a :: seg) :: segs) := by
  conv_lhs => rw [splitOnPred]
  rw [if_neg (by simp [ha])]

/-- Splitting a separator-free block followed by a separator peels the
block off as the first segment. -/
theorem splitOnPred_append_sep (p : Char → Bool) (s x : List Char)
    (hs : ∀ c ∈ s, p c = false) (sep : Char) (hsep : p sep = true) :
    splitOnPred p (s ++ sep :: x) = s :: splitOnPred p x := by
  induction s with
  | nil =>
      simp only [List.nil_append]
      exact splitOnPred_cons_of_pos p sep x hsep
  | cons a s' ih =>
      have ha : p a = false := hs a (List.mem_cons_self a s')
      have ih' := ih (fun c hc => hs c (List.mem_cons_of_mem a hc))
      simp only [List.cons_append]
      rw [splitOnPred_cons_of_neg p a _ ha, ih']

/-- Peeling a clean leading sentence (no terminal marks, stripped,
non-empty) off the sentence list. -/
theorem charSentences_append_sep (s x : List Char)
    (hs : ∀ c ∈ s, isTerm c = false) (hstrip : pstrip s = s) (hne : s ≠ []) :
    charSentences (s ++ '.' :: x) = s :: charSentences x := by
  have hcond : (fun t : List Char => !t.isEmpty) s = true := by
    cases s with
    | nil => exact absurd rfl hne
    | cons a t => simp
  unfold charSentences
  rw [splitOnPred_append_sep isTerm s x hs '.' (by decide)]
  rw [List.map_cons, hstrip, List.filter_cons, if_pos hcond]

/-- A leading blank does not change the sentence list. -/
theorem charSentences_cons_space (x : List Char) :
    charSentences (' ' :: x) = charSentences x := by
  unfold charSentences
  rw [splitOnPred_cons_of_neg isTerm ' ' x (by decide)]
  cases hsp : splitOnPred isTerm x with
  | nil => exact absurd hsp (splitOnPred_ne_nil isTerm x)
  | cons seg segs =>
      dsimp only
      rw [List.map_cons, List.map_cons, pstrip_cons_ws (by decide) seg]

/-- Every extracted sentence is non-empty, stripped, and free of terminal
marks. -/
theorem charSentences_mem (cs : List Char) (t : List Char)
    (ht : t ∈ charSentences cs) :
    t ≠ [] ∧ pstrip t = t ∧ ∀ c ∈ t, isTerm c = false := by
  unfold charSentences at ht
  obtain ⟨hmem, hcond⟩ := List.mem_filter.mp ht
  obtain ⟨seg, hseg, rfl⟩ := List.mem_map.mp hmem
  refine ⟨?_, pstrip_idem seg, ?_⟩
  · intro h0
    rw [h0] at hcond
    simp at hcond
  · intro c hc
    exact splitOnPred_no_sep isTerm cs seg hseg c (mem_pstrip hc)

/-- Re-splitting a '. '-join of clean sentences recovers exactly those
sentences. -/
theorem charSentences_join : ∀ (l : List (List Char)), l ≠ [] →
    (∀ t ∈ l, t ≠ []) → (∀ t ∈ l, pstrip t = t) →
    (∀ t ∈ l, ∀ c ∈ t, isTerm c = false) →
    charSentences (joinChars l) = l := by
  intro l
  induction l with
  | nil => intro h; exact absurd rfl h
  | cons s rest ih =>
      intro _ hne hstrip hterm
      cases rest with
      | nil =>
          have hJ : joinChars [s] = s ++ '.' :: [] := rfl
          rw [hJ, charSentences_append_sep s []
              (fun c hc => hterm s (List.mem_cons_self s []) c hc)
              (hstrip s (List.mem_cons_self s []))
              (hne s (List.mem_cons_self s []))]
          rfl
      | cons s2 rest2 =>
          have hJ : joinChars (s :: s2 :: rest2) =
              s ++ '.' :: ' ' :: joinChars (s2 :: rest2) := rfl
          rw [hJ, charSentences_append_sep s (' ' :: joinChars (s2 :: rest2))
              (fun c hc => hterm s (List.mem_cons_self s _) c hc)
              (hstrip s (List.mem_cons_self s _))
              (hne s (List.mem_cons_self s _))]
          rw [charSentences_cons_space]
          rw [ih (by simp)
              (fun t htm => hne t (List.mem_cons_of_mem s htm))
              (fun t htm => hstrip t (List.mem_cons_of_mem s htm))
              (fun t htm => hterm t (List.mem_cons_of_mem s htm))]

/-- Claim C8, counterexample to counting terminal marks: a response with
11 terminal marks but only 2 sentences is returned as-is by run_middle_10;
its output has 2 sentences and 11 terminal marks, not exactly 10. -/
theorem c8_marks_are_not_sentences :
    "a!!!!!!!!!!!b".toList.countP isTerm = 11 ∧
    run_middle_10 (fun _ => ⟨true, "a!!!!!!!!!!!b", none⟩) "x" = "a!!!!!!!!!!!b" ∧
    (charSentences
      (run_middle_10 (fun _ => ⟨true, "a!!!!!!!!!!!b", none⟩) "x").toList).length = 2 ∧
    (run_middle_10 (fun _ => ⟨true, "a!!!!!!!!!!!b", none⟩) "x").toList.countP isTerm
      = 11 := by
  refine ⟨by decide, by decide, by decide, by decide⟩

/-- Claim C8, amended: for a successful model call, when the stripped
response splits into more than 10 sentences (non-empty stripped segments
between runs of '.', '!', '?'), run_middle_10 returns the first 10
re-joined with '. ' and a final '.', and that output splits into exactly
10 sentences; with 10 or fewer sentences the stripped response is
returned as-is, without padding. -/
theorem c8_middle_cap (call : String → ModelResult) (ct : String) :
    ((call ct).ok = true →
      (charSentences (pstrip (call ct).text.toList)).length > 10 →
      run_middle_10 call ct =
        String.mk (joinChars ((charSentences (pstrip (call ct).text.toList)).take 10)) ∧
      charSentences (run_middle_10 call ct).toList =
        (charSentences (pstrip (call ct).text.toList)).take 10 ∧
      (charSentences (run_middle_10 call ct).toList).length = 10) ∧
    ((call ct).ok = true →
      (charSentences (pstrip (call ct).text.toList)).length ≤ 10 →
      run_middle_10 call ct = String.mk (pstrip (call ct).text.toList)) := by
  constructor
  · intro hok hcount
    have hrun : run_middle_10 call ct =
        String.mk (joinChars ((charSentences (pstrip (call ct).text.toList)).take 10)) := by
      unfold run_middle_10
      dsimp only
      rw [hok]
      simp only [Bool.true_eq_false, if_false]
      rw [if_pos hcount]
    have htake_sub : ∀ t ∈ (charSentences (pstrip (call ct).text.toList)).take 10,
        t ∈ charSentences (pstrip (call ct).text.toList) :=
      fun t htm => List.take_subset 10 _ htm
    have hlen10 : ((charSentences (pstrip (call ct).text.toList)).take 10).length = 10 := by
      rw [List.length_take]
      omega
    have htne : (charSentences (pstrip (call ct).text.toList)).take 10 ≠ [] := by
      intro h0
      rw [h0] at hlen10
      simp at hlen10
    have hsents : charSentences (run_middle_10 call ct).toList =
        (charSentences (pstrip (call ct).text.toList)).take 10 := by
      rw [hrun]
      exact charSentences_join ((charSentences (pstrip (call ct).text.toList)).take 10)
        htne
        (fun t htm => (charSentences_mem _ t (htake_sub t htm)).1)
        (fun t htm => (charSentences_mem _ t (htake_sub t htm)).2.1)
        (fun t htm => (charSentences_mem _ t (htake_sub t htm)).2.2)
    exact ⟨hrun, hsents, by rw [hsents]; exact hlen10⟩
  · intro hok hcount
    unfold run_middle_10
    dsimp only
    rw [hok]
    simp only [Bool.true_eq_false, if_false]
    rw [if_neg (by omega)]

/-- Witness for c8_middle_cap: a 12-sentence response is truncated to its
first 10 sentences, and the output splits into exactly 10. -/
theorem c8_middle_cap_witness :
    run_middle_10 (fun _ => ⟨true, "A. B. C. D. E. F. G. H. I. J. K. L.", none⟩) "x" =
      String.mk (joinChars
        ((charSentences (pstrip "A. B. C. D. E. F. G. H. I. J. K. L.".toList)).take 10)) ∧
    (charSentences
      (run_middle_10 (fun _ => ⟨true, "A. B. C. D. E. F. G. H. I. J. K. L.", none⟩)
        "x").toList).length = 10 :=
  ⟨((c8_middle_cap (fun _ => ⟨true, "A. B. C. D. E. F. G. H. I. J. K. L.", none⟩) "x").1
      rfl (by decide)).1,
   ((c8_middle_cap (fun _ => ⟨true, "A. B. C. D. E. F. G. H. I. J. K. L.", none⟩) "x").1
      rfl (by decide)).2.2⟩

end YtSumm
